import Mathlib

/-!
Verification of the `better_memoize` repository (src/better_memoize.py).

The repository has two utilities:

* `memoize`: inspects a function's argument specification with
  `inspect.getargspec`, synthesizes source text for a wrapper whose declared
  parameter list is identical to the original's, and `exec`s it.  The wrapper
  computes a cache key `(arg1, ..., argN, varargs, frozenset(keywords.items()))`
  from its bound parameters, looks the key up in a per-wrapper dict, and on a
  miss invokes the original function and stores the result.

* `private_cache`: returns `property(Cache().__getitem__)` where `Cache` is a
  dict subclass whose `__missing__` invokes the wrapped one-argument function
  on the key (the owning instance) and stores the result.

The embedding below has two layers:

1. A string layer (`arg_formatter` section) that mirrors the source-text
   synthesis in `arg_formatter` at the level of the joined parameter strings.

2. A semantic layer that embeds the behaviour of the synthesized wrapper:
   Python call binding for a signature of the supported shape
   (named parameters with trailing defaults, optional `*varargs`, optional
   `**keywords`), cache-key construction, the dict cache as an association
   list, and the lookup/compute/store step.  Python values are modelled by a
   small universe `PyVal` with decidable equality; `list` values are the
   unhashable representatives.  The `**keywords` dict and the frozenset of
   its items are carried as lists of pairs in insertion order, and Python
   `==` on cache keys (tuple equality with frozenset equality for the last
   component, which ignores order) is modelled explicitly by `keyEqB`; the
   cache dict compares keys with `==`, exactly as `cacheLookup` does here.
-/

/-- A small universe of Python values.  `int` and `str` are hashable;
`list` is the canonical unhashable value. -/
inductive PyVal where
  | int : Int → PyVal
  | str : String → PyVal
  | list : List Int → PyVal
deriving DecidableEq, Repr

/-- Python exceptions relevant to this code: `TypeError` (bad call shapes and
unhashable keys), `AttributeError` (setting a property with no setter), and
user exceptions raised by the wrapped function, identified by a code. -/
inductive PyErr where
  | typeError : PyErr
  | attributeError : PyErr
  | exception : Nat → PyErr
deriving DecidableEq, Repr

instance {ε α : Type} [DecidableEq ε] [DecidableEq α] : DecidableEq (Except ε α) :=
  fun x y =>
    match x, y with
    | .error a, .error b =>
      if h : a = b then .isTrue (by rw [h]) else .isFalse (by simp [h])
    | .error _, .ok _ => .isFalse (by simp)
    | .ok _, .error _ => .isFalse (by simp)
    | .ok a, .ok b =>
      if h : a = b then .isTrue (by rw [h]) else .isFalse (by simp [h])

/-- Whether `hash(v)` succeeds in Python. -/
def PyVal.hashable : PyVal → Bool
  | .int _ => true
  | .str _ => true
  | .list _ => false

/-- The argument specification of a supported callable, as produced by
`inspect.getargspec` and consumed by the synthesized wrapper: named
parameters `argNames`, default values for the trailing
`defaults.length` of them, and flags for `*varargs` / `**keywords`
collectors (the collector names play no role in call semantics). -/
structure FuncShape where
  argNames : List String
  defaults : List PyVal
  hasVarargs : Bool
  hasKeywords : Bool
deriving DecidableEq, Repr

/-- A call made to the memoized wrapper: positional argument values in order,
and keyword arguments as written at the call site. -/
structure Call where
  pos : List PyVal
  kw : List (String × PyVal)
deriving DecidableEq, Repr

/-- The result of Python call binding against the wrapper's signature:
one value per named parameter, the tuple collected by `*varargs`, and the
dict collected by `**keywords` as its items in insertion order. -/
structure Binding where
  argVals : List PyVal
  varargs : List PyVal
  kwargs : List (String × PyVal)
deriving DecidableEq, Repr

/-- Look a name up among the keyword arguments of a call. -/
def lookupKw (kw : List (String × PyVal)) (name : String) : Option PyVal :=
  (kw.find? (fun p => decide (p.1 = name))).map (fun p => p.2)

/-- Python binding of the `i`-th named parameter: a positional value if one
was supplied (a simultaneous keyword for the same name is a `TypeError`),
else a keyword value, else the declared default, else `TypeError` for a
missing required argument. -/
def bindOne (s : FuncShape) (c : Call) (i : Nat) : Except PyErr PyVal :=
  let name := s.argNames.getD i ""
  match c.pos.get? i with
  | some v =>
    match lookupKw c.kw name with
    | some _ => .error .typeError
    | none => .ok v
  | none =>
    match lookupKw c.kw name with
    | some v => .ok v
    | none =>
      if i < s.argNames.length - s.defaults.length then .error .typeError
      else
        match s.defaults.get? (i - (s.argNames.length - s.defaults.length)) with
        | some v => .ok v
        | none => .error .typeError

/-- Bind each named parameter in turn, propagating the first failure. -/
def bindList (s : FuncShape) (c : Call) : List Nat → Except PyErr (List PyVal)
  | [] => .ok []
  | i :: is =>
    match bindOne s c i with
    | .error e => .error e
    | .ok v =>
      match bindList s c is with
      | .error e => .error e
      | .ok vs => .ok (v :: vs)

/-- The keyword arguments of a call that do not target a named parameter;
they land in the `**keywords` dict when one exists. -/
def extraKw (s : FuncShape) (c : Call) : List (String × PyVal) :=
  c.kw.filter (fun p => decide (¬ p.1 ∈ s.argNames))

/-- Python call binding against the wrapper's signature.  Excess positional
arguments without a `*varargs` collector, stray keyword arguments without a
`**keywords` collector, a parameter bound both positionally and by keyword,
and a missing required parameter are all `TypeError`s. -/
def bindCall (s : FuncShape) (c : Call) : Except PyErr Binding :=
  if s.argNames.length < c.pos.length ∧ s.hasVarargs = false then .error .typeError
  else if extraKw s c ≠ [] ∧ s.hasKeywords = false then .error .typeError
  else
    match bindList s c (List.range s.argNames.length) with
    | .error e => .error e
    | .ok vs =>
      .ok { argVals := vs,
            varargs := if s.hasVarargs then c.pos.drop s.argNames.length else [],
            kwargs := if s.hasKeywords then extraKw s c else [] }

/-- The cache key the synthesized wrapper computes:
`(arg1, ..., argN, varargs, frozenset(keywords.items()))`.  The trailing
tuple and frozenset components are present exactly when the corresponding
collector is declared; for a fixed wrapper the tuple arity is fixed, so a
structure models the Python tuple faithfully.  The frozenset is carried as
its construction list; Python `==` on it is the set equality `fsetEqB`. -/
structure PyKey where
  argVals : List PyVal
  varargs : Option (List PyVal)
  kwset : Option (List (String × PyVal))
deriving DecidableEq, Repr

/-- Build the wrapper's cache key from a binding. -/
def mkKey (s : FuncShape) (b : Binding) : PyKey :=
  { argVals := b.argVals,
    varargs := if s.hasVarargs then some b.varargs else none,
    kwset := if s.hasKeywords then some b.kwargs else none }

/-- Python `==` on frozensets: equality of the element sets, regardless of
the order the elements were inserted in. -/
def fsetEqB (l₁ l₂ : List (String × PyVal)) : Bool :=
  l₁.all (fun p => decide (p ∈ l₂)) && l₂.all (fun p => decide (p ∈ l₁))

/-- Python `==` on two cache keys of the same wrapper: componentwise `==`,
which is structural equality for the value and tuple components and set
equality for the frozenset component.  The cache dict compares keys this
way. -/
def keyEqB (k₁ k₂ : PyKey) : Bool :=
  decide (k₁.argVals = k₂.argVals) &&
  decide (k₁.varargs = k₂.varargs) &&
  (match k₁.kwset, k₂.kwset with
   | none, none => true
   | some l₁, some l₂ => fsetEqB l₁ l₂
   | _, _ => false)

/-- `hash(key)` succeeds iff every named-parameter value is hashable, every
value collected by `*varargs` is hashable (the tuple hash hashes its
elements), and every value in the `**keywords` dict is hashable (building
`frozenset(keywords.items())` hashes each item pair, whose name component is
always a hashable string). -/
def KeyHashable (k : PyKey) : Prop :=
  (∀ v ∈ k.argVals, v.hashable = true) ∧
  (∀ l, k.varargs = some l → ∀ v ∈ l, v.hashable = true) ∧
  (∀ l, k.kwset = some l → ∀ p ∈ l, PyVal.hashable p.2 = true)

instance : DecidablePred KeyHashable := fun _ =>
  inferInstanceAs (Decidable (_ ∧ _ ∧ _))

/-- The wrapper's cache: the dict `cache`, as an association list in
insertion order.  Keys are compared with Python `==`, i.e. `keyEqB`. -/
abbrev Cache := List (PyKey × PyVal)

/-- Dict lookup: the entry stored for a key, if any. -/
def cacheLookup (cache : Cache) (k : PyKey) : Option PyVal :=
  (cache.find? (fun e => keyEqB e.1 k)).map (fun e => e.2)

/-- One call of the synthesized `_memoize` wrapper.  Returns the call's
result, the cache afterwards, and whether the underlying function was
invoked.  Mirrors the generated code: bind the arguments, build the key
(hashing failures surface as `TypeError` before the cache is consulted or
modified), return a hit, otherwise invoke `func`, store, and return. -/
def callMemo (s : FuncShape) (f : Binding → Except PyErr PyVal)
    (cache : Cache) (c : Call) : Except PyErr PyVal × Cache × Bool :=
  match bindCall s c with
  | .error e => (.error e, cache, false)
  | .ok b =>
    let key := mkKey s b
    if KeyHashable key then
      match cacheLookup cache key with
      | some v => (.ok v, cache, false)
      | none =>
        match f b with
        | .error e => (.error e, cache, true)
        | .ok v => (.ok v, cache ++ [(key, v)], true)
    else (.error .typeError, cache, false)

/-- Run a sequence of calls against one memoized wrapper, threading the
cache and counting how many calls invoked the underlying function. -/
def runCalls (s : FuncShape) (f : Binding → Except PyErr PyVal)
    (cache : Cache) : List Call → Cache × Nat × List (Except PyErr PyVal)
  | [] => (cache, 0, [])
  | c :: cs =>
    let r := callMemo s f cache c
    let rest := runCalls s f r.2.1 cs
    (rest.1, (if r.2.2 then 1 else 0) + rest.2.1, r.1 :: rest.2.2)

/-!
## Per-instance accessor cache (`private_cache`)

`private_cache(func)` builds a dict subclass `Cache` whose `__missing__`
calls `func` on the missing key and stores the result, then returns
`property(Cache().__getitem__, doc=func.__doc__)`.  The dict is keyed by the
owning instance itself, so lookups follow Python dict semantics for the
instance's type: a probe matches a stored key when they are the same object
or compare equal (CPython checks identity first, then `__eq__`); the probe
fails with `TypeError` when the instance is unhashable.  Instances are
modelled with an identity `iid`, a payload `val`, and a hashability flag;
the owning type's `__eq__`/`__hash__` semantics enter as a parameter `eqv`
(for a type without custom equality, `eqv` compares identities; for a
value-equality type such as a namedtuple subclass, it compares payloads).
-/

/-- A Python object serving as a `private_cache` dict key: its identity
(`id()`), a payload its type may compare by, and whether `hash()` succeeds
on it. -/
structure PyObj where
  iid : Nat
  val : Nat
  hbl : Bool
deriving DecidableEq, Repr

/-- Dict key matching for a probe `x` against a stored key `k`:
same object, or equal under the type's `__eq__`. -/
def objMatch (eqv : PyObj → PyObj → Bool) (k x : PyObj) : Bool :=
  decide (k.iid = x.iid) || eqv k x

/-- One attribute access through the `private_cache` property on instance
`x`: probe the dict (a `TypeError` for an unhashable instance), return a hit
without calling `func`, otherwise `__missing__` calls `func x` and stores
the result under the instance itself.  Returns the access result, the dict
afterwards, and whether `func` ran. -/
def pcAccess {β : Type} (func : PyObj → β) (eqv : PyObj → PyObj → Bool)
    (cache : List (PyObj × β)) (x : PyObj) :
    Except PyErr β × List (PyObj × β) × Bool :=
  if x.hbl = false then (.error .typeError, cache, false)
  else
    match cache.find? (fun e => objMatch eqv e.1 x) with
    | some e => (.ok e.2, cache, false)
    | none => (.ok (func x), cache ++ [(x, func x)], true)

/-- Iterate `n` further accesses of the same instance, reporting the final
dict, the total number of `func` invocations, and the list of results. -/
def pcIterate {β : Type} (func : PyObj → β) (eqv : PyObj → PyObj → Bool)
    (cache : List (PyObj × β)) (x : PyObj) :
    Nat → List (PyObj × β) × Nat × List (Except PyErr β)
  | 0 => (cache, 0, [])
  | n + 1 =>
    let r := pcAccess func eqv cache x
    let rest := pcIterate func eqv r.2.1 x n
    (rest.1, (if r.2.2 then 1 else 0) + rest.2.1, r.1 :: rest.2.2)

/-- A Python `property` descriptor as returned by `private_cache`: a getter
over the shared dict, and optional setter/deleter slots, absent here. -/
structure PyProperty (β : Type) where
  fget : Option (List (PyObj × β) → PyObj → Except PyErr β × List (PyObj × β) × Bool)
  fset : Option (PyObj → β → Unit)
  fdel : Option (PyObj → Unit)

/-- The descriptor `private_cache` returns: `property(Cache().__getitem__)`,
with no setter and no deleter. -/
def private_cache {β : Type} (func : PyObj → β) (eqv : PyObj → PyObj → Bool) :
    PyProperty β :=
  { fget := some (pcAccess func eqv), fset := none, fdel := none }

/-- Python's semantics for assigning through a property descriptor: with no
setter the assignment raises `AttributeError`. -/
def propSetAttr {β : Type} (p : PyProperty β) (x : PyObj) (v : β) :
    Except PyErr Unit :=
  match p.fset with
  | none => .error .attributeError
  | some f => .ok (f x v)

/-!
## String layer: `arg_formatter`

`arg_formatter` reads the argument specification and assembles three
comma-joined strings.  Default values appear through `repr`; the
specification is modelled here with its defaults already rendered as their
`repr` strings, which is exactly what the string assembly consumes.
-/

/-- The argument specification at the string level: parameter names, the
`repr` strings of the trailing defaults, and the optional collector names. -/
structure ArgSpec where
  args : List String
  varargs : Option String
  keywords : Option String
  defaults : List String
deriving DecidableEq, Repr

/-- Python's `', '.join`. -/
def pyJoin : List String → String
  | [] => ""
  | [x] => x
  | x :: y :: xs => x ++ ", " ++ pyJoin (y :: xs)

/-- Render one defaulted parameter as `name=repr`. -/
def fmtDefault (p : String × String) : String := p.1 ++ "=" ++ p.2

/-- The list of pieces whose join is `top_args`, exactly as `arg_formatter`
builds them: the joined required names as one piece when any exist, the
joined `name=repr` pairs as one piece when any defaults exist, then the
starred collector names. -/
def topPieces (s : ArgSpec) : List String :=
  (if s.args.length - s.defaults.length ≠ 0 then
    [pyJoin (s.args.take (s.args.length - s.defaults.length))] else []) ++
  (if s.defaults ≠ [] then
    [pyJoin (((s.args.drop (s.args.length - s.defaults.length)).zip s.defaults).map fmtDefault)]
   else []) ++
  (match s.varargs with | some v => ["*" ++ v] | none => []) ++
  (match s.keywords with | some k => ["**" ++ k] | none => [])

/-- `top_args`: the declared parameter list of the synthesized wrapper. -/
def topArgs (s : ArgSpec) : String := pyJoin (topPieces s)

/-- `middle_args`: the expression list forming the cache-key tuple. -/
def middleArgs (s : ArgSpec) : String :=
  pyJoin (s.args ++
    (match s.varargs with | some v => [v] | none => []) ++
    (match s.keywords with | some k => ["frozenset(" ++ k ++ ".items())"] | none => []))

/-- `bottom_args`: the argument list forwarding the call to the original. -/
def bottomArgs (s : ArgSpec) : String :=
  pyJoin (s.args ++
    (match s.varargs with | some v => ["*" ++ v] | none => []) ++
    (match s.keywords with | some k => ["**" ++ k] | none => []))

/-- The canonical rendering of the original function's own declared
parameter list: every required name, every defaulted parameter as
`name=repr`, then the starred collectors, joined flat. -/
def renderSig (s : ArgSpec) : String :=
  pyJoin
    (s.args.take (s.args.length - s.defaults.length) ++
      ((s.args.drop (s.args.length - s.defaults.length)).zip s.defaults).map fmtDefault ++
      (match s.varargs with | some v => ["*" ++ v] | none => []) ++
      (match s.keywords with | some k => ["**" ++ k] | none => []))

/-- The parameter names the synthesized wrapper declares, in order: the
required names, then the name of each `name=repr` defaulted piece. -/
def declaredNames (s : ArgSpec) : List String :=
  s.args.take (s.args.length - s.defaults.length) ++
    ((s.args.drop (s.args.length - s.defaults.length)).zip s.defaults).map Prod.fst

/-!
## Predicates used in the specifications
-/

/-- Bindings that `bindCall` can produce for shape `s`: the collector slots
are empty when the corresponding collector is absent. -/
def WellShaped (s : FuncShape) (b : Binding) : Prop :=
  (s.hasVarargs = false → b.varargs = []) ∧ (s.hasKeywords = false → b.kwargs = [])

/-- Python `==` on two bindings: equal parameter values, equal varargs
tuples, and `**keywords` dicts with the same item set. -/
def BindingEqv (b₁ b₂ : Binding) : Prop :=
  b₁.argVals = b₂.argVals ∧ b₁.varargs = b₂.varargs ∧
    fsetEqB b₁.kwargs b₂.kwargs = true

/-- The cache is consistent with the pure function `g`: any stored value is
the value of `g` on every well-shaped binding whose key `==`-matches the
entry's key. -/
def GoodCache (s : FuncShape) (g : Binding → PyVal) (cache : Cache) : Prop :=
  ∀ e ∈ cache, ∀ b, WellShaped s b → keyEqB (mkKey s b) e.1 = true → g b = e.2

/-- No two cache entries have `==`-equal keys (each distinct key owns at
most one entry). -/
def KeysDistinct (cache : Cache) : Prop :=
  cache.Pairwise (fun e₁ e₂ => keyEqB e₁.1 e₂.1 = false)

/-!
## Concrete instances used by the witnesses and scenarios

The shape of `f(x, y, z=-1, *varargs, **keywords)` from the source's
docstring and the spec's concrete scenario, together with the calls
`f(1,2)`, `f(1,2)`, `f(1,2,z=3)`.
-/

/-- The argument shape of `f(x, y, z=-1, *varargs, **keywords)`. -/
def exShape : FuncShape :=
  { argNames := ["x", "y", "z"], defaults := [.int (-1)],
    hasVarargs := true, hasKeywords := true }

/-- The call `f(1, 2)`. -/
def exCall12 : Call := { pos := [.int 1, .int 2], kw := [] }

/-- The call `f(1, 2, z=3)`. -/
def exCall12z3 : Call := { pos := [.int 1, .int 2], kw := [("z", .int 3)] }

/-- The call `f(1, 2, a=5, b=6)`. -/
def exCallKwAB : Call :=
  { pos := [.int 1, .int 2], kw := [("a", .int 5), ("b", .int 6)] }

/-- The call `f(1, 2, b=6, a=5)`: the same keyword bindings, reordered. -/
def exCallKwBA : Call :=
  { pos := [.int 1, .int 2], kw := [("b", .int 6), ("a", .int 5)] }

/-- The call `f(1, [3])` carrying an unhashable list argument. -/
def exCallBad : Call := { pos := [.int 1, .list [3]], kw := [] }

/-- A trivial underlying body. -/
def exFun : Binding → Except PyErr PyVal := fun _ => .ok (.int 0)

/-- An underlying body that always raises. -/
def exFunRaise : Binding → Except PyErr PyVal := fun _ => .error (.exception 7)

/-- The string-level argument specification of
`f(x, y, z=-1, *varargs, **keywords)`. -/
def exSig : ArgSpec :=
  { args := ["x", "y", "z"], varargs := some "varargs",
    keywords := some "keywords", defaults := ["-1"] }

/-- Value equality, the `__eq__`/`__hash__` of a value-comparing type such
as a namedtuple subclass: instances compare equal iff their payloads do. -/
def eqValPy (a b : PyObj) : Bool := decide (a.val = b.val)

/-- An accessor distinguishing instances: it reads the instance identity. -/
def exField (o : PyObj) : Nat := o.iid

/-- A hashable instance with payload 7. -/
def exA : PyObj := { iid := 1, val := 7, hbl := true }

/-- A distinct instance with the same payload 7: `exA ≠ exB` but the two
compare and hash equal under `eqValPy`. -/
def exB : PyObj := { iid := 2, val := 7, hbl := true }

/-- An unhashable instance. -/
def exU : PyObj := { iid := 3, val := 9, hbl := false }

/-!
## Helper lemmas
-/

theorem fsetEqB_iff {l₁ l₂ : List (String × PyVal)} :
    fsetEqB l₁ l₂ = true ↔ (∀ p ∈ l₁, p ∈ l₂) ∧ (∀ p ∈ l₂, p ∈ l₁) := by
  simp [fsetEqB, List.all_eq_true]

theorem fsetEqB_refl (l : List (String × PyVal)) : fsetEqB l l = true :=
  fsetEqB_iff.mpr ⟨fun _ hp => hp, fun _ hp => hp⟩

theorem fsetEqB_symm {l₁ l₂ : List (String × PyVal)} (h : fsetEqB l₁ l₂ = true) :
    fsetEqB l₂ l₁ = true := by
  rcases fsetEqB_iff.mp h with ⟨h₁, h₂⟩
  exact fsetEqB_iff.mpr ⟨h₂, h₁⟩

theorem fsetEqB_trans {l₁ l₂ l₃ : List (String × PyVal)}
    (h : fsetEqB l₁ l₂ = true) (h' : fsetEqB l₂ l₃ = true) :
    fsetEqB l₁ l₃ = true := by
  rcases fsetEqB_iff.mp h with ⟨h₁, h₂⟩
  rcases fsetEqB_iff.mp h' with ⟨h₃, h₄⟩
  exact fsetEqB_iff.mpr ⟨fun p hp => h₃ p (h₁ p hp), fun p hp => h₂ p (h₄ p hp)⟩

theorem fsetEqB_of_perm {l₁ l₂ : List (String × PyVal)} (h : l₁.Perm l₂) :
    fsetEqB l₁ l₂ = true :=
  fsetEqB_iff.mpr ⟨fun _ hp => h.mem_iff.mp hp, fun _ hp => h.mem_iff.mpr hp⟩

theorem keyEqB_iff {k₁ k₂ : PyKey} :
    keyEqB k₁ k₂ = true ↔
      k₁.argVals = k₂.argVals ∧ k₁.varargs = k₂.varargs ∧
        ((k₁.kwset = none ∧ k₂.kwset = none) ∨
         (∃ l₁ l₂, k₁.kwset = some l₁ ∧ k₂.kwset = some l₂ ∧ fsetEqB l₁ l₂ = true)) := by
  rcases k₁ with ⟨a₁, v₁, w₁⟩
  rcases k₂ with ⟨a₂, v₂, w₂⟩
  cases w₁ <;> cases w₂ <;> simp [keyEqB, and_assoc]

theorem keyEqB_refl (k : PyKey) : keyEqB k k = true := by
  rcases k with ⟨a, v, w⟩
  cases w <;> simp [keyEqB, fsetEqB_refl]

theorem keyEqB_symm {k₁ k₂ : PyKey} (h : keyEqB k₁ k₂ = true) :
    keyEqB k₂ k₁ = true := by
  rcases keyEqB_iff.mp h with ⟨h₁, h₂, h₃ | ⟨l₁, l₂, e₁, e₂, hf⟩⟩
  · exact keyEqB_iff.mpr ⟨h₁.symm, h₂.symm, .inl ⟨h₃.2, h₃.1⟩⟩
  · exact keyEqB_iff.mpr ⟨h₁.symm, h₂.symm, .inr ⟨l₂, l₁, e₂, e₁, fsetEqB_symm hf⟩⟩

theorem keyEqB_trans {k₁ k₂ k₃ : PyKey}
    (h : keyEqB k₁ k₂ = true) (h' : keyEqB k₂ k₃ = true) :
    keyEqB k₁ k₃ = true := by
  rcases keyEqB_iff.mp h with ⟨h₁, h₂, h₃ | ⟨l₁, l₂, e₁, e₂, hf⟩⟩ <;>
    rcases keyEqB_iff.mp h' with ⟨h₁', h₂', h₃' | ⟨l₂', l₃, e₂', e₃, hf'⟩⟩
  · exact keyEqB_iff.mpr ⟨h₁.trans h₁', h₂.trans h₂', .inl ⟨h₃.1, h₃'.2⟩⟩
  · rw [h₃.2] at e₂'; cases e₂'
  · rw [e₂] at h₃'; cases h₃'.1
  · rw [e₂] at e₂'
    cases e₂'
    exact keyEqB_iff.mpr
      ⟨h₁.trans h₁', h₂.trans h₂', .inr ⟨l₁, l₃, e₁, e₃, fsetEqB_trans hf hf'⟩⟩

theorem cacheLookup_eq_none_iff {cache : Cache} {k : PyKey} :
    cacheLookup cache k = none ↔ ∀ e ∈ cache, keyEqB e.1 k = false := by
  simp [cacheLookup, List.find?_eq_none]

theorem cacheLookup_append {cache ext : Cache} {k : PyKey}
    (h : cacheLookup cache k = none) :
    cacheLookup (cache ++ ext) k = cacheLookup ext k := by
  unfold cacheLookup at h ⊢
  rw [List.find?_append]
  cases hf : cache.find? (fun e => keyEqB e.1 k) with
  | none => simp
  | some e => rw [hf] at h; simp at h

theorem cacheLookup_append_left {cache ext : Cache} {k : PyKey} {v : PyVal}
    (h : cacheLookup cache k = some v) :
    cacheLookup (cache ++ ext) k = some v := by
  unfold cacheLookup at h ⊢
  rw [List.find?_append]
  cases hf : cache.find? (fun e => keyEqB e.1 k) with
  | none => rw [hf] at h; simp at h
  | some e => rw [hf] at h; simpa using h

theorem cacheLookup_single {k k' : PyKey} (v : PyVal) (h : keyEqB k k' = true) :
    cacheLookup [(k, v)] k' = some v := by
  simp [cacheLookup, List.find?_cons, h]

theorem cacheLookup_congr {cache : Cache} {k₁ k₂ : PyKey}
    (h : keyEqB k₁ k₂ = true) :
    cacheLookup cache k₁ = cacheLookup cache k₂ := by
  induction cache with
  | nil => rfl
  | cons e t ih =>
    unfold cacheLookup at ih ⊢
    rw [List.find?_cons, List.find?_cons]
    cases hb : keyEqB e.1 k₁ <;> cases hb' : keyEqB e.1 k₂
    · exact ih
    · rw [keyEqB_trans hb' (keyEqB_symm h)] at hb; cases hb
    · rw [keyEqB_trans hb h] at hb'; cases hb'
    · rfl

theorem callMemo_bind_error {s : FuncShape} {f : Binding → Except PyErr PyVal}
    {cache : Cache} {c : Call} {e : PyErr} (hb : bindCall s c = .error e) :
    callMemo s f cache c = (.error e, cache, false) := by
  simp [callMemo, hb]

theorem callMemo_unhashable {s : FuncShape} {f : Binding → Except PyErr PyVal}
    {cache : Cache} {c : Call} {b : Binding} (hb : bindCall s c = .ok b)
    (hh : ¬ KeyHashable (mkKey s b)) :
    callMemo s f cache c = (.error .typeError, cache, false) := by
  simp [callMemo, hb, hh]

theorem callMemo_hit {s : FuncShape} {f : Binding → Except PyErr PyVal}
    {cache : Cache} {c : Call} {b : Binding} {v : PyVal}
    (hb : bindCall s c = .ok b) (hh : KeyHashable (mkKey s b))
    (hl : cacheLookup cache (mkKey s b) = some v) :
    callMemo s f cache c = (.ok v, cache, false) := by
  simp [callMemo, hb, hh, hl]

theorem callMemo_miss_ok {s : FuncShape} {f : Binding → Except PyErr PyVal}
    {cache : Cache} {c : Call} {b : Binding} {v : PyVal}
    (hb : bindCall s c = .ok b) (hh : KeyHashable (mkKey s b))
    (hl : cacheLookup cache (mkKey s b) = none) (hf : f b = .ok v) :
    callMemo s f cache c = (.ok v, cache ++ [(mkKey s b, v)], true) := by
  simp [callMemo, hb, hh, hl, hf]

theorem callMemo_miss_raise {s : FuncShape} {f : Binding → Except PyErr PyVal}
    {cache : Cache} {c : Call} {b : Binding} {e : PyErr}
    (hb : bindCall s c = .ok b) (hh : KeyHashable (mkKey s b))
    (hl : cacheLookup cache (mkKey s b) = none) (hf : f b = .error e) :
    callMemo s f cache c = (.error e, cache, true) := by
  simp [callMemo, hb, hh, hl, hf]

theorem callMemo_ok_inv {s : FuncShape} {f : Binding → Except PyErr PyVal}
    {cache : Cache} {c : Call} {v : PyVal} {cache' : Cache} {i : Bool}
    (h : callMemo s f cache c = (.ok v, cache', i)) :
    ∃ b, bindCall s c = .ok b ∧ KeyHashable (mkKey s b) ∧
      ((cacheLookup cache (mkKey s b) = some v ∧ cache' = cache ∧ i = false) ∨
       (cacheLookup cache (mkKey s b) = none ∧ f b = .ok v ∧
        cache' = cache ++ [(mkKey s b, v)] ∧ i = true)) := by
  cases hb : bindCall s c with
  | error e => rw [callMemo_bind_error hb] at h; simp at h
  | ok b =>
    refine ⟨b, rfl, ?_⟩
    by_cases hh : KeyHashable (mkKey s b)
    · refine ⟨hh, ?_⟩
      cases hl : cacheLookup cache (mkKey s b) with
      | some w =>
        rw [callMemo_hit hb hh hl] at h
        simp only [Prod.mk.injEq, Except.ok.injEq] at h
        obtain ⟨h₁, h₂, h₃⟩ := h
        exact .inl ⟨congrArg some h₁, h₂.symm, h₃.symm⟩
      | none =>
        cases hf : f b with
        | error e => rw [callMemo_miss_raise hb hh hl hf] at h; simp at h
        | ok w =>
          rw [callMemo_miss_ok hb hh hl hf] at h
          simp only [Prod.mk.injEq, Except.ok.injEq] at h
          obtain ⟨h₁, h₂, h₃⟩ := h
          exact .inr ⟨rfl, congrArg Except.ok h₁,
            h₂.symm.trans (congrArg (fun t => cache ++ [(mkKey s b, t)]) h₁), h₃.symm⟩
    · rw [callMemo_unhashable hb hh] at h; simp at h

theorem cacheLookup_some_inv {cache : Cache} {k : PyKey} {v : PyVal}
    (h : cacheLookup cache k = some v) :
    ∃ e ∈ cache, keyEqB e.1 k = true ∧ e.2 = v := by
  unfold cacheLookup at h
  cases hf : cache.find? (fun e => keyEqB e.1 k) with
  | none => rw [hf] at h; cases h
  | some e =>
    rw [hf] at h
    injection h with h
    have hp := @List.find?_some _ (fun e => keyEqB e.1 k) e cache hf
    exact ⟨e, List.mem_of_find?_eq_some hf, hp, h⟩

theorem bindCall_wellShaped {s : FuncShape} {c : Call} {b : Binding}
    (h : bindCall s c = .ok b) : WellShaped s b := by
  unfold bindCall at h
  split at h
  · exact Except.noConfusion h
  · split at h
    · exact Except.noConfusion h
    · split at h
      · exact Except.noConfusion h
      · rw [Except.ok.injEq] at h
        refine ⟨fun hv => ?_, fun hk => ?_⟩
        · rw [← h]; simp [hv]
        · rw [← h]; simp [hk]

theorem keyEqB_mkKey_eqv {s : FuncShape} {b₁ b₂ : Binding}
    (w₁ : WellShaped s b₁) (w₂ : WellShaped s b₂)
    (h : keyEqB (mkKey s b₁) (mkKey s b₂) = true) : BindingEqv b₁ b₂ := by
  rcases keyEqB_iff.mp h with ⟨h₁, h₂, h₃ | ⟨l₁, l₂, e₁, e₂, hf⟩⟩
  · refine ⟨h₁, ?_, ?_⟩
    · cases hv : s.hasVarargs with
      | true => simp [mkKey, hv] at h₂; exact h₂
      | false => rw [w₁.1 hv, w₂.1 hv]
    · cases hk : s.hasKeywords with
      | true => simp [mkKey, hk] at h₃
      | false => rw [w₁.2 hk, w₂.2 hk]; exact fsetEqB_refl []
  · refine ⟨h₁, ?_, ?_⟩
    · cases hv : s.hasVarargs with
      | true => simp [mkKey, hv] at h₂; exact h₂
      | false => rw [w₁.1 hv, w₂.1 hv]
    · cases hk : s.hasKeywords with
      | true =>
        simp [mkKey, hk] at e₁ e₂
        rw [← e₁, ← e₂] at hf; exact hf
      | false => simp [mkKey, hk] at e₁

/-- C2: for every memoized function, the underlying function runs at most
once per distinct cache key: a call repeated after any successful call
returns the stored value without invoking the underlying function or
changing the cache; and in the concrete scenario
`f(x, y, z=-1, *varargs, **keywords)` called as `f(1,2)`, `f(1,2)`,
`f(1,2,z=3)`, the underlying body executes exactly twice, the third call's
key being distinct from the first two. -/
theorem memoize_at_most_once_per_key :
    (∀ (s : FuncShape) (f : Binding → Except PyErr PyVal) (cache : Cache)
        (c : Call) (v : PyVal) (cache' : Cache) (i : Bool),
        callMemo s f cache c = (.ok v, cache', i) →
        callMemo s f cache' c = (.ok v, cache', false)) ∧
    (runCalls exShape exFun [] [exCall12, exCall12, exCall12z3]).2.1 = 2 ∧
    (bindCall exShape exCall12).map (mkKey exShape) ≠
      (bindCall exShape exCall12z3).map (mkKey exShape) := by
  refine ⟨?_, by decide, by decide⟩
  intro s f cache c v cache' i h
  obtain ⟨b, hb, hh, hcase⟩ := callMemo_ok_inv h
  rcases hcase with ⟨hl, hc, _⟩ | ⟨hl, hf, hc, _⟩
  · subst hc; exact callMemo_hit hb hh hl
  · subst hc
    exact callMemo_hit hb hh
      ((cacheLookup_append hl).trans (cacheLookup_single v (keyEqB_refl _)))

/-- Witness for C2: the second `f(1,2)` call, replayed against the cache
produced by the first, returns the stored value without invoking the body. -/
theorem memoize_at_most_once_per_key_witness :
    callMemo exShape exFun
      [({ argVals := [.int 1, .int 2, .int (-1)], varargs := some [],
          kwset := some [] }, .int 0)] exCall12 =
      (.ok (.int 0),
       [({ argVals := [.int 1, .int 2, .int (-1)], varargs := some [],
           kwset := some [] }, .int 0)], false) :=
  memoize_at_most_once_per_key.1 exShape exFun [] exCall12 (.int 0) _ true
    (by decide)

/-- C3: invoking the memoized wrapper of a pure function (one that respects
Python value-equality of its bound arguments) returns exactly the value the
original function returns for that binding — on a first call and on every
repeated call, i.e. from any cache state consistent with the function,
consistency being preserved by every call. -/
theorem memoized_returns_original_value
    (s : FuncShape) (g : Binding → PyVal)
    (hg : ∀ b₁ b₂, BindingEqv b₁ b₂ → g b₁ = g b₂)
    (cache : Cache) (hc : GoodCache s g cache) (c : Call)
    (v : PyVal) (cache' : Cache) (i : Bool)
    (h : callMemo s (fun b => .ok (g b)) cache c = (.ok v, cache', i)) :
    (∃ b, bindCall s c = .ok b ∧ v = g b) ∧ GoodCache s g cache' := by
  obtain ⟨b, hb, _, hcase⟩ := callMemo_ok_inv h
  have hws := bindCall_wellShaped hb
  rcases hcase with ⟨hl, hcc, _⟩ | ⟨_, hf, hcc, _⟩
  · obtain ⟨e, hmem, hkey, hval⟩ := cacheLookup_some_inv hl
    have := hc e hmem b hws (keyEqB_symm hkey)
    subst hcc
    exact ⟨⟨b, hb, by rw [← hval, ← this]⟩, hc⟩
  · rw [Except.ok.injEq] at hf
    subst hcc
    refine ⟨⟨b, hb, hf.symm⟩, ?_⟩
    intro e hmem b' hws' hkey'
    rcases List.mem_append.mp hmem with hold | hnew
    · exact hc e hold b' hws' hkey'
    · rcases List.mem_singleton.mp hnew with rfl
      have := keyEqB_mkKey_eqv hws' hws hkey'
      exact (hg b' b this).trans hf

/-- Witness for C3: the memoized `f(1,2)` on an empty cache returns the
value of the underlying constant function. -/
theorem memoized_returns_original_value_witness :
    (∃ b, bindCall exShape exCall12 = .ok b ∧ PyVal.int 0 = (fun _ => PyVal.int 0) b) ∧
      GoodCache exShape (fun _ => PyVal.int 0)
        [({ argVals := [.int 1, .int 2, .int (-1)], varargs := some [],
            kwset := some [] }, .int 0)] :=
  memoized_returns_original_value exShape (fun _ => PyVal.int 0)
    (fun _ _ _ => rfl) [] (fun e he => absurd he (List.not_mem_nil e))
    exCall12 (.int 0) _ true (by decide)

/-- C6: a call whose bound arguments contain an unhashable value fails with
a `TypeError` from the hashing failure; the cache is left unchanged and the
underlying function is not invoked (no silent wrong hit, no partial store). -/
theorem unhashable_argument_fails_cleanly
    (s : FuncShape) (f : Binding → Except PyErr PyVal) (cache : Cache)
    (c : Call) (b : Binding) (hb : bindCall s c = .ok b)
    (hh : ¬ KeyHashable (mkKey s b)) :
    callMemo s f cache c = (.error .typeError, cache, false) :=
  callMemo_unhashable hb hh

/-- Witness for C6: `f(1, [3])` carries an unhashable list; the call
raises `TypeError`, caches nothing, and never consults the body. -/
theorem unhashable_argument_fails_cleanly_witness :
    callMemo exShape exFun [] exCallBad = (.error .typeError, [], false) :=
  unhashable_argument_fails_cleanly exShape exFun [] exCallBad
    { argVals := [.int 1, .list [3], .int (-1)], varargs := [], kwargs := [] }
    (by decide) (by decide)

/-- C9: when the underlying function raises on a cache miss, the exception
propagates, nothing is stored for the key, and a later identical call (the
cache being unchanged) invokes the underlying function again. -/
theorem exceptions_are_never_cached
    (s : FuncShape) (f : Binding → Except PyErr PyVal) (cache : Cache)
    (c : Call) (b : Binding) (e : PyErr)
    (hb : bindCall s c = .ok b) (hh : KeyHashable (mkKey s b))
    (hl : cacheLookup cache (mkKey s b) = none) (hf : f b = .error e) :
    callMemo s f cache c = (.error e, cache, true) ∧
    callMemo s f (callMemo s f cache c).2.1 c = (.error e, cache, true) := by
  have h₁ := callMemo_miss_raise hb hh hl hf
  exact ⟨h₁, by rw [h₁]; exact h₁⟩

/-- Witness for C9: a body that always raises exception 7 propagates it on
`f(1,2)`, stores nothing, and raises again (invoking the body again) on the
replayed call. -/
theorem exceptions_are_never_cached_witness :
    callMemo exShape exFunRaise [] exCall12 = (.error (.exception 7), [], true) ∧
    callMemo exShape exFunRaise (callMemo exShape exFunRaise [] exCall12).2.1 exCall12 =
      (.error (.exception 7), [], true) :=
  exceptions_are_never_cached exShape exFunRaise [] exCall12
    { argVals := [.int 1, .int 2, .int (-1)], varargs := [], kwargs := [] }
    (.exception 7) (by decide) (by decide) (by decide) (by decide)

theorem callMemo_cache_step (s : FuncShape) (f : Binding → Except PyErr PyVal)
    (cache : Cache) (c : Call) :
    (callMemo s f cache c).2.1 = cache ∨
    ∃ k v, cacheLookup cache k = none ∧
      (callMemo s f cache c).2.1 = cache ++ [(k, v)] := by
  cases hb : bindCall s c with
  | error e => rw [callMemo_bind_error hb]; exact .inl rfl
  | ok b =>
    by_cases hh : KeyHashable (mkKey s b)
    · cases hl : cacheLookup cache (mkKey s b) with
      | some w => rw [callMemo_hit hb hh hl]; exact .inl rfl
      | none =>
        cases hf : f b with
        | error e => rw [callMemo_miss_raise hb hh hl hf]; exact .inl rfl
        | ok w =>
          rw [callMemo_miss_ok hb hh hl hf]
          exact .inr ⟨mkKey s b, w, hl, rfl⟩
    · rw [callMemo_unhashable hb hh]; exact .inl rfl

/-- C8: the cache only grows.  Over any call sequence the final cache
extends the initial one (no entry is removed), every stored entry keeps
answering lookups with its original value (never overwritten), and
distinctness of keys is preserved, so each distinct key owns at most one
entry for the lifetime of the wrapper. -/
theorem cache_only_grows
    (s : FuncShape) (f : Binding → Except PyErr PyVal) (calls : List Call)
    (cache : Cache) (hd : KeysDistinct cache) :
    (∃ ext, (runCalls s f cache calls).1 = cache ++ ext) ∧
    KeysDistinct (runCalls s f cache calls).1 ∧
    (∀ k v, cacheLookup cache k = some v →
      cacheLookup (runCalls s f cache calls).1 k = some v) := by
  induction calls generalizing cache with
  | nil => exact ⟨⟨[], by simp [runCalls]⟩, hd, fun k v h => h⟩
  | cons c cs ih =>
    have hrun : (runCalls s f cache (c :: cs)).1 =
        (runCalls s f (callMemo s f cache c).2.1 cs).1 := by
      simp [runCalls]
    rcases callMemo_cache_step s f cache c with hstep | ⟨k, v, hnone, hstep⟩
    · rw [hrun, hstep]
      exact ih cache hd
    · have hd' : KeysDistinct (cache ++ [(k, v)]) := by
        rw [KeysDistinct, List.pairwise_append]
        refine ⟨hd, List.pairwise_singleton _ _, ?_⟩
        intro e he e' he'
        rcases List.mem_singleton.mp he' with rfl
        exact cacheLookup_eq_none_iff.mp hnone e he
      obtain ⟨⟨ext, hext⟩, hdist, hstab⟩ := ih (cache ++ [(k, v)]) hd'
      rw [hrun, hstep]
      refine ⟨⟨[(k, v)] ++ ext, by rw [hext, List.append_assoc]⟩, hdist, ?_⟩
      intro k' v' hv'
      exact hstab k' v' (cacheLookup_append_left hv')

/-- Witness for C8: running `f(1,2)` from the empty cache (whose keys are
trivially distinct) yields a cache extending it with distinct keys. -/
theorem cache_only_grows_witness :
    (∃ ext, (runCalls exShape exFun [] [exCall12]).1 = [] ++ ext) ∧
    KeysDistinct (runCalls exShape exFun [] [exCall12]).1 ∧
    (∀ k v, cacheLookup [] k = some v →
      cacheLookup (runCalls exShape exFun [] [exCall12]).1 k = some v) :=
  cache_only_grows exShape exFun [exCall12] [] List.Pairwise.nil

theorem pcAccess_fresh {β : Type} {func : PyObj → β} {eqv : PyObj → PyObj → Bool}
    {cache : List (PyObj × β)} {x : PyObj} (hx : x.hbl = true)
    (hun : ∀ e ∈ cache, objMatch eqv e.1 x = false) :
    pcAccess func eqv cache x = (.ok (func x), cache ++ [(x, func x)], true) := by
  have hnone : cache.find? (fun e => objMatch eqv e.1 x) = none :=
    List.find?_eq_none.mpr (fun e he => by simp [hun e he])
  simp [pcAccess, hx, hnone]

theorem pcAccess_hit {β : Type} {func : PyObj → β} {eqv : PyObj → PyObj → Bool}
    {cache : List (PyObj × β)} {x : PyObj} {e : PyObj × β} (hx : x.hbl = true)
    (hf : cache.find? (fun e => objMatch eqv e.1 x) = some e) :
    pcAccess func eqv cache x = (.ok e.2, cache, false) := by
  simp [pcAccess, hx, hf]

/-- C4 counterexample: the `private_cache` dict keys by the instance's
hash/equality semantics, not identity.  `exA` and `exB` are distinct
instances of a value-comparing type that compare (and hash) equal; after
`exA` populates the cache, `exB`'s first access returns `exA`'s cached
value (`exField exA = 1`) without running the accessor on `exB` (which
would yield `exField exB = 2`), contradicting the claim. -/
theorem private_cache_identity_keying_cex :
    exA ≠ exB ∧ eqValPy exA exB = true ∧
    pcAccess exField eqValPy [] exA = (.ok 1, [(exA, 1)], true) ∧
    pcAccess exField eqValPy [(exA, 1)] exB = (.ok 1, [(exA, 1)], false) ∧
    exField exB = 2 := by decide

/-- C4 (amended): the per-instance cache is keyed by the owning instance
under its type's `__eq__`/`__hash__` semantics.  An instance matching no
stored key — neither identical to nor comparing equal with any cached
instance — never observes another instance's cached value: its first access
runs the underlying function on that instance and stores the result under
it.  (Instances that compare equal share a single entry, as the
counterexample shows.) -/
theorem private_cache_keyed_by_equality
    {β : Type} (func : PyObj → β) (eqv : PyObj → PyObj → Bool)
    (cache : List (PyObj × β)) (x : PyObj) (hx : x.hbl = true)
    (hfresh : ∀ e ∈ cache, objMatch eqv e.1 x = false) :
    pcAccess func eqv cache x = (.ok (func x), cache ++ [(x, func x)], true) :=
  pcAccess_fresh hx hfresh

/-- Witness for the amended C4: an instance equal to nothing in the cache
computes its own value. -/
theorem private_cache_keyed_by_equality_witness :
    pcAccess exField eqValPy [(exA, 1)] { iid := 4, val := 8, hbl := true } =
      (.ok 4, [(exA, 1), ({ iid := 4, val := 8, hbl := true }, 4)], true) :=
  private_cache_keyed_by_equality exField eqValPy [(exA, 1)]
    { iid := 4, val := 8, hbl := true } (by decide) (by decide)

/-- C7: the per-instance state machine has exactly the two states
UNCOMPUTED and COMPUTED with a one-way transition: from the UNCOMPUTED
state (no cache entry matches the instance) the first access evaluates the
underlying function and stores the result, and every later access — any
number of them — returns the stored value with no further invocation and no
cache change, so there is no path back. -/
theorem private_cache_two_state
    {β : Type} (func : PyObj → β) (eqv : PyObj → PyObj → Bool)
    (cache : List (PyObj × β)) (x : PyObj) (hx : x.hbl = true)
    (hun : ∀ e ∈ cache, objMatch eqv e.1 x = false) (n : Nat) :
    pcAccess func eqv cache x = (.ok (func x), cache ++ [(x, func x)], true) ∧
    pcIterate func eqv (cache ++ [(x, func x)]) x n =
      (cache ++ [(x, func x)], 0, List.replicate n (.ok (func x))) := by
  refine ⟨pcAccess_fresh hx hun, ?_⟩
  have hnone : cache.find? (fun e => objMatch eqv e.1 x) = none :=
    List.find?_eq_none.mpr (fun e he => by simp [hun e he])
  have hself : (cache ++ [(x, func x)]).find? (fun e => objMatch eqv e.1 x) =
      some (x, func x) := by
    rw [List.find?_append, hnone]
    simp [objMatch]
  induction n with
  | zero => rfl
  | succ n ih =>
    unfold pcIterate
    rw [pcAccess_hit hx hself]
    simp only [ih]
    simp [List.replicate_succ]

/-- Witness for C7: instance `exA` on the empty cache transitions to
COMPUTED once and three further accesses all return the stored value with
zero invocations. -/
theorem private_cache_two_state_witness :
    pcAccess exField eqValPy [] exA = (.ok 1, [(exA, 1)], true) ∧
    pcIterate exField eqValPy [(exA, 1)] exA 3 =
      ([(exA, 1)], 0, List.replicate 3 (.ok 1)) := by
  have h := private_cache_two_state exField eqValPy [] exA (by decide)
    (fun e he => absurd he (List.not_mem_nil e)) 3
  simpa using h

/-- C10: a `private_cache` accessor requires a hashable owning instance —
access on an unhashable instance raises `TypeError`, computing and caching
nothing and never invoking the function — and the descriptor is read-only:
it carries no setter, so assignment raises `AttributeError`. -/
theorem private_cache_unhashable_and_readonly
    {β : Type} (func : PyObj → β) (eqv : PyObj → PyObj → Bool)
    (cache : List (PyObj × β)) (x : PyObj) (v : β) (hx : x.hbl = false) :
    pcAccess func eqv cache x = (.error .typeError, cache, false) ∧
    (private_cache func eqv).fset = none ∧
    propSetAttr (private_cache func eqv) x v = .error .attributeError := by
  refine ⟨by simp [pcAccess, hx], rfl, rfl⟩

/-- Witness for C10: the unhashable instance `exU` raises on access, and
assigning through the descriptor raises `AttributeError`. -/
theorem private_cache_unhashable_and_readonly_witness :
    pcAccess exField eqValPy [] exU = (.error .typeError, [], false) ∧
    (private_cache exField eqValPy).fset = none ∧
    propSetAttr (private_cache exField eqValPy) exU 5 = .error .attributeError :=
  private_cache_unhashable_and_readonly exField eqValPy [] exU 5 (by decide)

theorem eq_of_mem_nodup_fst {l : List (String × PyVal)} {p q : String × PyVal}
    (hnd : (l.map Prod.fst).Nodup) (hp : p ∈ l) (hq : q ∈ l) (h : p.1 = q.1) :
    p = q := by
  induction l with
  | nil => cases hp
  | cons a t ih =>
    rw [List.map_cons, List.nodup_cons] at hnd
    rcases List.mem_cons.mp hp with rfl | hp' <;>
      rcases List.mem_cons.mp hq with rfl | hq'
    · rfl
    · exact absurd (h ▸ List.mem_map_of_mem Prod.fst hq') hnd.1
    · exact absurd (h ▸ List.mem_map_of_mem Prod.fst hp') hnd.1
    · exact ih hnd.2 hp' hq'

theorem lookupKw_perm {kw₁ kw₂ : List (String × PyVal)}
    (hnd : (kw₁.map Prod.fst).Nodup) (hp : kw₁.Perm kw₂) (n : String) :
    lookupKw kw₁ n = lookupKw kw₂ n := by
  unfold lookupKw
  cases h₁ : kw₁.find? (fun p => decide (p.1 = n)) with
  | none =>
    rw [List.find?_eq_none] at h₁
    have h₂ : kw₂.find? (fun p => decide (p.1 = n)) = none :=
      List.find?_eq_none.mpr (fun x hx => h₁ x (hp.mem_iff.mpr hx))
    rw [h₂]
  | some p =>
    have hpmem : p ∈ kw₂ := hp.mem_iff.mp (List.mem_of_find?_eq_some h₁)
    have hpn := @List.find?_some _ (fun p => decide (p.1 = n)) p kw₁ h₁
    cases h₂ : kw₂.find? (fun p => decide (p.1 = n)) with
    | none =>
      rw [List.find?_eq_none] at h₂
      exact absurd hpn (h₂ p hpmem)
    | some q =>
      have hqmem : q ∈ kw₁ := hp.mem_iff.mpr (List.mem_of_find?_eq_some h₂)
      have hqn := @List.find?_some _ (fun p => decide (p.1 = n)) q kw₂ h₂
      rw [decide_eq_true_iff] at hpn hqn
      rw [eq_of_mem_nodup_fst hnd (List.mem_of_find?_eq_some h₁) hqmem
        (hpn.trans hqn.symm)]

theorem bindOne_congr {s : FuncShape} {c₁ c₂ : Call}
    (hpos : c₁.pos = c₂.pos)
    (hkw : ∀ n, lookupKw c₁.kw n = lookupKw c₂.kw n) (i : Nat) :
    bindOne s c₁ i = bindOne s c₂ i := by
  unfold bindOne
  simp only [hpos, hkw]

theorem bindList_congr {s : FuncShape} {c₁ c₂ : Call}
    (h : ∀ i, bindOne s c₁ i = bindOne s c₂ i) :
    ∀ is, bindList s c₁ is = bindList s c₂ is := by
  intro is
  induction is with
  | nil => rfl
  | cons i t ih => unfold bindList; rw [h i, ih]

theorem extraKw_perm {s : FuncShape} {c₁ c₂ : Call} (hp : c₁.kw.Perm c₂.kw) :
    (extraKw s c₁).Perm (extraKw s c₂) :=
  hp.filter _

theorem bindCall_perm {s : FuncShape} {c₁ c₂ : Call} {b₁ : Binding}
    (hnd : (c₁.kw.map Prod.fst).Nodup) (hpos : c₁.pos = c₂.pos)
    (hperm : c₁.kw.Perm c₂.kw) (h : bindCall s c₁ = .ok b₁) :
    ∃ b₂, bindCall s c₂ = .ok b₂ ∧ b₁.argVals = b₂.argVals ∧
      b₁.varargs = b₂.varargs ∧ b₁.kwargs.Perm b₂.kwargs := by
  have hkw : ∀ n, lookupKw c₁.kw n = lookupKw c₂.kw n :=
    lookupKw_perm hnd hperm
  have hfilter := @extraKw_perm s _ _ hperm
  have hnil : (extraKw s c₂ ≠ []) = (extraKw s c₁ ≠ []) := propext (by
    constructor
    · intro h₂ h₁
      rw [h₁] at hfilter
      exact h₂ hfilter.symm.eq_nil
    · intro h₁ h₂
      rw [h₂] at hfilter
      exact h₁ hfilter.eq_nil)
  unfold bindCall at h
  by_cases hA : s.argNames.length < c₁.pos.length ∧ s.hasVarargs = false
  · rw [if_pos hA] at h
    exact Except.noConfusion h
  · rw [if_neg hA] at h
    by_cases hB : extraKw s c₁ ≠ [] ∧ s.hasKeywords = false
    · rw [if_pos hB] at h
      exact Except.noConfusion h
    · rw [if_neg hB] at h
      cases hbl : bindList s c₁ (List.range s.argNames.length) with
      | error e =>
        rw [hbl] at h
        exact Except.noConfusion h
      | ok vs =>
        rw [hbl] at h
        rw [Except.ok.injEq] at h
        refine ⟨{ argVals := vs,
                  varargs := if s.hasVarargs then c₁.pos.drop s.argNames.length else [],
                  kwargs := if s.hasKeywords then extraKw s c₂ else [] },
          ?_, ?_, ?_, ?_⟩
        · unfold bindCall
          rw [← hpos]
          simp only [hnil]
          rw [if_neg hA, if_neg hB,
            ← bindList_congr (bindOne_congr hpos hkw) (List.range s.argNames.length),
            hbl]
        · rw [← h]
        · rw [← h, hpos]
        · rw [← h]
          by_cases hk : s.hasKeywords
          · simpa [hk] using hfilter
          · simp [hk]

theorem keyEqB_of_rel {s : FuncShape} {b₁ b₂ : Binding}
    (h₁ : b₁.argVals = b₂.argVals) (h₂ : b₁.varargs = b₂.varargs)
    (h₃ : b₁.kwargs.Perm b₂.kwargs) :
    keyEqB (mkKey s b₁) (mkKey s b₂) = true := by
  apply keyEqB_iff.mpr
  refine ⟨h₁, by simp [mkKey, h₂], ?_⟩
  by_cases hk : s.hasKeywords
  · exact .inr ⟨b₁.kwargs, b₂.kwargs, by simp [mkKey, hk], by simp [mkKey, hk],
      fsetEqB_of_perm h₃⟩
  · exact .inl ⟨by simp [mkKey, hk], by simp [mkKey, hk]⟩

theorem KeyHashable_of_rel {s : FuncShape} {b₁ b₂ : Binding}
    (h₁ : b₁.argVals = b₂.argVals) (h₂ : b₁.varargs = b₂.varargs)
    (h₃ : b₁.kwargs.Perm b₂.kwargs)
    (hh : KeyHashable (mkKey s b₁)) : KeyHashable (mkKey s b₂) := by
  obtain ⟨ha, hv, hk⟩ := hh
  refine ⟨?_, ?_, ?_⟩
  · intro v hvm
    exact ha v (by simpa [mkKey, ← h₁] using hvm)
  · intro l hl v hvm
    by_cases hva : s.hasVarargs
    · simp only [mkKey, hva, if_true] at hl
      rw [Option.some.injEq] at hl
      apply hv b₁.varargs (by simp [mkKey, hva])
      rw [h₂, hl]
      exact hvm
    · simp [mkKey, hva] at hl
  · intro l hl p hpm
    by_cases hkw : s.hasKeywords
    · simp only [mkKey, hkw, if_true] at hl
      rw [Option.some.injEq] at hl
      apply hk b₁.kwargs (by simp [mkKey, hkw])
      rw [← hl] at hpm
      exact h₃.mem_iff.mpr hpm
    · simp [mkKey, hkw] at hl

/-- C5: semantically equivalent calls produce `==`-equal cache keys and hit
the same cache entry.  First, calls differing only in the order of their
keyword arguments (same name/value pairs, names unrepeated) bind to
`==`-equal keys, and after either succeeds the other returns the stored
value without invoking the body or changing the cache.  Second, omitting a
trailing defaulted parameter produces exactly the same binding — hence the
same key — as passing its default value explicitly. -/
theorem equivalent_calls_share_cache_entry :
    (∀ (s : FuncShape) (c₁ c₂ : Call),
        (c₁.kw.map Prod.fst).Nodup → c₁.pos = c₂.pos → c₁.kw.Perm c₂.kw →
        (∀ b₁ b₂, bindCall s c₁ = .ok b₁ → bindCall s c₂ = .ok b₂ →
            keyEqB (mkKey s b₁) (mkKey s b₂) = true) ∧
        (∀ f v cache cache' i, callMemo s f cache c₁ = (.ok v, cache', i) →
            callMemo s f cache' c₂ = (.ok v, cache', false))) ∧
    (∀ (s : FuncShape) (c : Call) (v : PyVal),
        c.pos.length < s.argNames.length →
        s.argNames.length - s.defaults.length ≤ c.pos.length →
        s.defaults.get? (c.pos.length - (s.argNames.length - s.defaults.length)) =
          some v →
        lookupKw c.kw (s.argNames.getD c.pos.length "") = none →
        bindCall s c = bindCall s { pos := c.pos ++ [v], kw := c.kw }) := by
  constructor
  · intro s c₁ c₂ hnd hpos hperm
    constructor
    · intro b₁ b₂ h₁ h₂
      obtain ⟨b₂', hb₂', e₁, e₂, e₃⟩ := bindCall_perm hnd hpos hperm h₁
      rw [h₂, Except.ok.injEq] at hb₂'
      subst hb₂'
      exact keyEqB_of_rel e₁ e₂ e₃
    · intro f v cache cache' i h
      obtain ⟨b₁, hb₁, hh₁, hcase⟩ := callMemo_ok_inv h
      obtain ⟨b₂, hb₂, e₁, e₂, e₃⟩ := bindCall_perm hnd hpos hperm hb₁
      have hkeq := @keyEqB_of_rel s _ _ e₁ e₂ e₃
      have hh₂ := KeyHashable_of_rel e₁ e₂ e₃ hh₁
      rcases hcase with ⟨hl, hcc, _⟩ | ⟨hl, hf, hcc, _⟩
      · subst hcc
        exact callMemo_hit hb₂ hh₂
          ((cacheLookup_congr (keyEqB_symm hkeq)).trans hl)
      · subst hcc
        refine callMemo_hit hb₂ hh₂ ?_
        rw [cacheLookup_congr (keyEqB_symm hkeq)]
        exact (cacheLookup_append hl).trans (cacheLookup_single v (keyEqB_refl _))
  · intro s c v hlt hge hdef hkw
    have hbo : ∀ i, bindOne s c i = bindOne s { pos := c.pos ++ [v], kw := c.kw } i := by
      intro i
      unfold bindOne
      dsimp only
      rcases Nat.lt_trichotomy i c.pos.length with hi | hi | hi
      · rw [show (c.pos ++ [v]).get? i = c.pos.get? i from List.get?_append hi]
      · subst hi
        rw [List.get?_len_le (Nat.le_refl _), List.get?_concat_length, hkw,
          if_neg (Nat.not_lt.mpr hge), hdef]
      · rw [List.get?_len_le (Nat.le_of_lt hi), List.get?_len_le
          (show (c.pos ++ [v]).length ≤ i by
            simp only [List.length_append, List.length_cons, List.length_nil]
            omega)]
    unfold bindCall
    have hA : ¬(s.argNames.length < c.pos.length ∧ s.hasVarargs = false) := by
      rintro ⟨hcon, -⟩
      omega
    have hA' : ¬(s.argNames.length <
        ({ pos := c.pos ++ [v], kw := c.kw } : Call).pos.length ∧
        s.hasVarargs = false) := by
      rintro ⟨hcon, -⟩
      simp at hcon
      omega
    rw [if_neg hA, if_neg hA']
    have hex : extraKw s { pos := c.pos ++ [v], kw := c.kw } = extraKw s c := rfl
    simp only [hex]
    rw [← bindList_congr hbo (List.range s.argNames.length)]
    have hd₁ : c.pos.drop s.argNames.length = [] :=
      List.drop_eq_nil_of_le (Nat.le_of_lt hlt)
    have hd₂ : ({ pos := c.pos ++ [v], kw := c.kw } : Call).pos.drop
        s.argNames.length = [] :=
      List.drop_eq_nil_of_le (by simp; omega)
    rw [hd₁, hd₂]

/-- Witness for C5: `f(1,2,a=5,b=6)` and `f(1,2,b=6,a=5)` bind to
`==`-equal keys, and `f(1,2)` binds exactly as `f(1,2,-1)`, which passes
the default explicitly. -/
theorem equivalent_calls_share_cache_entry_witness :
    keyEqB
      (mkKey exShape (Binding.mk [.int 1, .int 2, .int (-1)] []
        [("a", .int 5), ("b", .int 6)]))
      (mkKey exShape (Binding.mk [.int 1, .int 2, .int (-1)] []
        [("b", .int 6), ("a", .int 5)])) = true ∧
    bindCall exShape exCall12 =
      bindCall exShape { pos := exCall12.pos ++ [.int (-1)], kw := exCall12.kw } :=
  ⟨(equivalent_calls_share_cache_entry.1 exShape exCallKwAB exCallKwBA
      (by decide) (by decide) (by decide)).1 _ _ (by decide) (by decide),
   equivalent_calls_share_cache_entry.2 exShape exCall12 (.int (-1))
      (by decide) (by decide) (by decide) (by decide)⟩

theorem pyJoin_cons (x : String) {l : List String} (h : l ≠ []) :
    pyJoin (x :: l) = x ++ ", " ++ pyJoin l := by
  cases l with
  | nil => exact absurd rfl h
  | cons y ys => rfl

theorem pyJoin_join_head :
    ∀ (l rest : List String), l ≠ [] → pyJoin (pyJoin l :: rest) = pyJoin (l ++ rest)
  | [], _, h => absurd rfl h
  | [x], rest, _ => rfl
  | x :: y :: t, rest, _ => by
    cases rest with
    | nil => simp [pyJoin]
    | cons r rs =>
      rw [pyJoin_cons (pyJoin (x :: y :: t)) (List.cons_ne_nil r rs)]
      rw [show pyJoin (x :: y :: t) = x ++ ", " ++ pyJoin (y :: t) from rfl]
      rw [show (x :: y :: t) ++ r :: rs = x :: ((y :: t) ++ r :: rs) from rfl]
      rw [pyJoin_cons x (by simp)]
      rw [← pyJoin_join_head (y :: t) (r :: rs) (List.cons_ne_nil y t)]
      rw [pyJoin_cons (pyJoin (y :: t)) (List.cons_ne_nil r rs)]
      simp only [String.append_assoc]

theorem pyJoin_mid :
    ∀ (pre l rest : List String), l ≠ [] →
      pyJoin (pre ++ pyJoin l :: rest) = pyJoin (pre ++ (l ++ rest))
  | [], l, rest, h => pyJoin_join_head l rest h
  | p :: ps, l, rest, h => by
    rw [List.cons_append, List.cons_append]
    rw [pyJoin_cons p (by simp)]
    rw [pyJoin_cons p (by simp [h])]
    rw [pyJoin_mid ps l rest h]

/-- C1: for every supported parameter list, the synthesized wrapper's
declared parameter text (`top_args`) is exactly the canonical rendering of
the original function's own parameter list — same required names in the
same order, same `name=repr` defaults, same starred collector names — and
the parameter names the wrapper declares are exactly the original's. -/
theorem memoize_preserves_signature (s : ArgSpec)
    (h : s.defaults.length ≤ s.args.length) :
    topArgs s = renderSig s ∧ declaredNames s = s.args := by
  constructor
  · unfold topArgs topPieces renderSig
    set c := s.args.length - s.defaults.length with hc
    by_cases hc0 : c ≠ 0 <;> by_cases hd0 : s.defaults ≠ []
    · have htake : s.args.take c ≠ [] := by
        intro heq
        rcases List.take_eq_nil_iff.mp heq with h₁ | h₁
        · exact hc0 h₁
        · apply hc0
          rw [hc, h₁]
          simp
      have hzip : ((s.args.drop c).zip s.defaults).map fmtDefault ≠ [] := by
        have hlen : (((s.args.drop c).zip s.defaults).map fmtDefault).length =
            s.defaults.length := by
          rw [List.length_map, List.length_zip, List.length_drop, hc]
          omega
        intro heq
        rw [heq] at hlen
        exact hd0 (List.length_eq_zero.mp hlen.symm)
      rw [if_pos hc0, if_pos hd0]
      simp only [List.append_assoc, List.singleton_append, List.cons_append,
        List.nil_append]
      rw [pyJoin_join_head _ _ htake, pyJoin_mid _ _ _ hzip]
    · have htake : s.args.take c ≠ [] := by
        intro heq
        rcases List.take_eq_nil_iff.mp heq with h₁ | h₁
        · exact hc0 h₁
        · apply hc0
          rw [hc, h₁]
          simp
      have hd := not_not.mp hd0
      rw [if_pos hc0, if_neg hd0, hd]
      simp only [List.zip_nil_right, List.map_nil, List.append_nil,
        List.nil_append, List.append_assoc, List.singleton_append,
        List.cons_append]
      rw [pyJoin_join_head _ _ htake]
    · have hcz := not_not.mp hc0
      have hzip : (s.args.zip s.defaults).map fmtDefault ≠ [] := by
        have hlen : ((s.args.zip s.defaults).map fmtDefault).length =
            s.defaults.length := by
          rw [List.length_map, List.length_zip]
          omega
        intro heq
        rw [heq] at hlen
        exact hd0 (List.length_eq_zero.mp hlen.symm)
      rw [if_neg hc0, if_pos hd0, hcz]
      simp only [List.take_zero, List.drop_zero, List.nil_append,
        List.append_assoc, List.singleton_append, List.cons_append]
      rw [pyJoin_join_head _ _ hzip]
    · have hcz := not_not.mp hc0
      have hd := not_not.mp hd0
      have hargs : s.args = [] := by
        apply List.length_eq_zero.mp
        rw [hc, hd] at hcz
        simpa using hcz
      rw [if_neg hc0, if_neg hd0, hd, hargs]
      simp
  · unfold declaredNames
    rw [List.map_fst_zip _ _ (by rw [List.length_drop]; omega)]
    exact List.take_append_drop _ _

/-- Witness for C1: the shape of `f(x, y, z=-1, *varargs, **keywords)`
renders identically on both sides and declares the names x, y, z. -/
theorem memoize_preserves_signature_witness :
    topArgs exSig = renderSig exSig ∧ declaredNames exSig = exSig.args :=
  memoize_preserves_signature exSig (by decide)
